import Mathlib

/-!
Verification of the `Slo` lexer (`src/lexer.rs`).

The Rust source is shallowly embedded: the `Peekable<Chars>` cursor becomes
explicit state passing over `List Char` (each helper receives the remaining
input and returns the rest it did not consume), `usize` line counters become
`Nat`, a Rust panic becomes the `TokResult.panicked` outcome and the
recoverable `Err((String, Location))` channel becomes `TokResult.err`.
-/

namespace Slo

/-- `LiteralKind` from `lexer.rs`.  The `f64` payload of `Float` is embedded
as the exact decimal rational produced by the numeric run; the IEEE-754
rounding that `str::parse::<f64>` performs on that decimal value is not
modelled (no claim depends on the rounded bit pattern). -/
inductive LiteralKind where
  | int : Int → LiteralKind
  | float : Rat → LiteralKind
  | char : Char → LiteralKind
  | bool : Bool → LiteralKind
  | string : String → LiteralKind
  deriving DecidableEq, Repr

/-- `Token` from `lexer.rs`. -/
inductive Token where
  | plus
  | minus
  | multiply
  | divide
  | carat
  | lessThan
  | greaterThan
  | and
  | eq
  | lparen
  | rparen
  | lbrace
  | rbrace
  | colon
  | identifier : String → Token
  | literal : LiteralKind → Token
  | semi
  | arrow
  deriving DecidableEq, Repr

/-- `Location` from `lexer.rs`: the 0-based line number. -/
structure Location where
  line : Nat
  deriving DecidableEq, Repr

/-- Outcome of a call to `tokenize`.  `ok`/`err` are the two sides of the
Rust `Result`; `panicked` records a process abort (`panic!` or `.unwrap()`
failure) together with its message. -/
inductive TokResult where
  | ok : List (Token × Location) → TokResult
  | err : String → Location → TokResult
  | panicked : String → TokResult
  deriving DecidableEq, Repr

/-- `consume_while` from `lexer.rs`: the consumed run paired with the input
left after it.  The failing character (if any) is the head of the second
component, exactly as it stays in the `Peekable` cursor in Rust. -/
def consume_while (p : Char → Bool) : List Char → List Char × List Char
  | [] => ([], [])
  | c :: cs =>
    if p c then
      let r := consume_while p cs
      (c :: r.1, r.2)
    else
      ([], c :: cs)

/-- Models Rust `char::is_alphabetic` (used by the identifier classifier's
closure).  Restricted to the ASCII letter range: the full Unicode
`Alphabetic` property is not modelled; every input exercised by the spec's
claims is ASCII, where the two coincide. -/
def is_alphabetic (c : Char) : Bool := c.isAlpha

/-- Models Rust `char::is_whitespace`: the Unicode `White_Space` set,
which is finite and listed here in full. -/
def is_whitespace (c : Char) : Bool :=
  c.toNat = 0x09 || c.toNat = 0x0A || c.toNat = 0x0B || c.toNat = 0x0C ||
  c.toNat = 0x0D || c.toNat = 0x20 || c.toNat = 0x85 || c.toNat = 0xA0 ||
  c.toNat = 0x1680 || (0x2000 ≤ c.toNat && c.toNat ≤ 0x200A) ||
  c.toNat = 0x2028 || c.toNat = 0x2029 || c.toNat = 0x202F ||
  c.toNat = 0x205F || c.toNat = 0x3000

/-- The closure `condition` inside `tokenize_identifier`. -/
def identifier_cond (c : Char) : Bool :=
  is_alphabetic c || c = '_' || c.isDigit || c = '\''

/-- Numeric value of a digit run (the value `str::parse` computes for it). -/
def digitsVal (l : List Char) : Nat :=
  l.foldl (fun a c => a * 10 + (c.toNat - 48)) 0

/-- Models `str::parse::<i64>` on the runs the number classifier produces:
a non-empty all-digit string parses to its value when that value fits in
`i64` (at most `2^63 - 1`; the lexer never hands this a sign), and every
other input is a parse error. -/
def parseI64 (l : List Char) : Option Int :=
  if l ≠ [] ∧ l.all Char.isDigit = true ∧ digitsVal l ≤ 9223372036854775807 then
    some ((digitsVal l : Int))
  else
    none

/-- Models `str::parse::<f64>` on the runs the number classifier produces
(digits and dots, at least one dot when this branch is taken): accepted
exactly when there is at most one dot and at least one digit, producing the
exact decimal value as a rational (see `LiteralKind.float`), assembled as a
single quotient `(ip * 10^k + fp) / 10^k` so that it evaluates. -/
def parseF64 (l : List Char) : Option Rat :=
  if l.count '.' = 0 then
    if l ≠ [] ∧ l.all Char.isDigit = true then some (digitsVal l) else none
  else if l.count '.' = 1 then
    let ip := l.takeWhile (fun c => c != '.')
    let fp := (l.dropWhile (fun c => c != '.')).tail
    if ip ++ fp ≠ [] ∧ (ip ++ fp).all Char.isDigit = true then
      some (mkRat (digitsVal ip * 10 ^ fp.length + digitsVal fp) (10 ^ fp.length))
    else
      none
  else
    none

/-- UTF-8 byte length of a run, as Rust `String::len` returns it (the
length `tokenize_char` compares against 1). -/
def utf8Len (l : List Char) : Nat :=
  l.foldl (fun n c => n + c.utf8Size) 0

/-- `tokenize_number` from `lexer.rs`.  The `.unwrap()` on a parse error
becomes the `error` (panic) outcome. -/
def tokenize_number (l : List Char) : Except String (Token × List Char) :=
  let number := (consume_while (fun c => c.isDigit || c = '.') l).1
  let rest := (consume_while (fun c => c.isDigit || c = '.') l).2
  if number.contains '.' then
    match parseF64 number with
    | some q => .ok (.literal (.float q), rest)
    | none => .error "called Result::unwrap() on an Err value: ParseFloatError"
  else
    match parseI64 number with
    | some n => .ok (.literal (.int n), rest)
    | none => .error "called Result::unwrap() on an Err value: ParseIntError"

/-- `tokenize_string` from `lexer.rs`: skip the opening quote, take the run
of non-quote characters, then require the closing quote (else the
`Unterminated string` panic). -/
def tokenize_string (l : List Char) : Except String (Token × List Char) :=
  let l1 := l.tail
  let string := (consume_while (fun c => c != '"') l1).1
  let rest := (consume_while (fun c => c != '"') l1).2
  if rest.head? = some '"' then
    .ok (.literal (.string (String.mk string)), rest.tail)
  else
    .error "Unterminated string"

/-- `tokenize_char` from `lexer.rs`.  Note: Rust compares
`character.len() != 1`, and `String::len` is the UTF-8 *byte* length, so a
single non-ASCII character also panics; the embedding keeps that via
`utf8Len`. -/
def tokenize_char (l : List Char) : Except String (Token × List Char) :=
  let l1 := l.tail
  let character := (consume_while (fun c => c != '\'') l1).1
  let rest := (consume_while (fun c => c != '\'') l1).2
  if utf8Len character ≠ 1 then
    .error ("Invalid character literal: " ++ String.mk character)
  else
    .ok (.literal (.char character.head!), rest.tail)

/-- `tokenize_identifier` from `lexer.rs` (the `match identifier.as_str()`
is equality dispatch on the two keyword spellings). -/
def tokenize_identifier (l : List Char) : Token × List Char :=
  let identifier := (consume_while identifier_cond l).1
  let rest := (consume_while identifier_cond l).2
  let s := String.mk identifier
  if s = "true" then (.literal (.bool true), rest)
  else if s = "false" then (.literal (.bool false), rest)
  else (.identifier s, rest)

/-- `tokenize_minus` from `lexer.rs`: one character of lookahead after the
consumed `-`. -/
def tokenize_minus (l : List Char) : Token × List Char :=
  let l1 := l.tail
  if l1.head? = some '>' then (.arrow, l1.tail) else (.minus, l1)

/-- `tokens.push((token, Location { line }))` followed by the rest of the
loop: a later `Err` or panic discards the tokens pushed so far, exactly as
the early `return Err` / abort does in Rust. -/
def emit (t : Token) (line : Nat) (k : TokResult) : TokResult :=
  match k with
  | .ok ts => .ok ((t, ⟨line⟩) :: ts)
  | r => r

/-- What one iteration of the scan loop does at the peeked character `c`
(with `c :: cs` the remaining input): the arm selection of the
`match c` in `tokenize`.  `tok` arms produce a token (or panic) and leave
the cursor after it, the `!` arm discards a comment, the whitespace arm
skips, and the default arm is the recoverable error. -/
inductive Step where
  | tok : Except String (Token × List Char) → Step
  | comment : List Char → Step
  | ws : Step
  | unexpected : Step

/-- The fixed single-character arms of the `match c` dispatch in `tokenize`
(`'+' '*' '/' '^' '(' ')' '\x7b' '\x7d' ':' ';' '<' '>' '&' '='`), each of
which consumes its character and yields the corresponding token.  They are
grouped into one lookup; all arms are mutually exclusive single-character
equality tests, so the grouping preserves the source's dispatch. -/
def punctToken (c : Char) : Option Token :=
  if c = '+' then some .plus
  else if c = '*' then some .multiply
  else if c = '/' then some .divide
  else if c = '^' then some .carat
  else if c = '(' then some .lparen
  else if c = ')' then some .rparen
  else if c = '\x7b' then some .lbrace
  else if c = '\x7d' then some .rbrace
  else if c = ':' then some .colon
  else if c = ';' then some .semi
  else if c = '<' then some .lessThan
  else if c = '>' then some .greaterThan
  else if c = '&' then some .and
  else if c = '=' then some .eq
  else none

/-- The `match c` dispatch of `tokenize`: classifier arms in source order,
with the single-character operator arms looked up via `punctToken`. -/
def classify (c : Char) (cs : List Char) : Step :=
  if c.isDigit then .tok (tokenize_number (c :: cs))
  else if c = '"' then .tok (tokenize_string (c :: cs))
  else if c = '\'' then .tok (tokenize_char (c :: cs))
  else if c.isAlpha then .tok (.ok (tokenize_identifier (c :: cs)))
  else if c = '-' then .tok (.ok (tokenize_minus (c :: cs)))
  else
    match punctToken c with
    | some t => .tok (.ok (t, cs))
    | none =>
      if c = '!' then .comment (consume_while (fun x => x != '\n') (c :: cs)).2
      else if is_whitespace c then .ws
      else .unexpected

/-- The `while let Some(&c) = chars.peek()` loop of `tokenize`, with a fuel
parameter for termination.  One unit of fuel is spent per iteration and
every iteration consumes at least one character, so any fuel exceeding the
input length is enough (`tokenizeFuel_mono` below); the fuel-exhausted
branch is unreachable from `tokenize`. -/
def tokenizeFuel : Nat → List Char → Nat → TokResult
  | 0, _, _ => .panicked "fuel exhausted"
  | _ + 1, [], _ => .ok []
  | fuel + 1, c :: cs, line =>
    match classify c cs with
    | .tok (.error m) => .panicked m
    | .tok (.ok (t, rest)) => emit t line (tokenizeFuel fuel rest line)
    | .comment rest => tokenizeFuel fuel rest line
    | .ws =>
      if c = '\n' then tokenizeFuel fuel cs (line + 1)
      else tokenizeFuel fuel cs line
    | .unexpected => .err ("Unexpected character: " ++ String.mk [c]) ⟨line⟩

/-- The scan continued from a cursor position `l` with current line number
`line` (the loop of `tokenize`, fuel instantiated sufficiently). -/
def tokenizeFrom (l : List Char) (line : Nat) : TokResult :=
  tokenizeFuel (l.length + 1) l line

/-- `tokenize` from `lexer.rs`: the single entry point. -/
def tokenize (s : String) : TokResult :=
  tokenizeFrom s.toList 0

/-! ### Properties of the consume-while primitive -/

theorem consume_while_eq (p : Char → Bool) :
    ∀ l : List Char, consume_while p l = (l.takeWhile p, l.dropWhile p) := by
  intro l
  induction l with
  | nil => rfl
  | cons c cs ih =>
    by_cases h : p c = true
    · simp [consume_while, h, List.takeWhile_cons, List.dropWhile_cons, ih]
    · simp [consume_while, h, List.takeWhile_cons, List.dropWhile_cons]

theorem consume_while_exact (p : Char → Bool) (xs ys : List Char)
    (h1 : ∀ c ∈ xs, p c = true) (h2 : ∀ c, ys.head? = some c → p c = false) :
    consume_while p (xs ++ ys) = (xs, ys) := by
  induction xs with
  | nil =>
    cases ys with
    | nil => rfl
    | cons c cs => simp [consume_while, h2 c rfl]
  | cons c cs ih =>
    have hc : p c = true := h1 c (List.mem_cons_self c cs)
    have ih2 := ih (fun d hd => h1 d (List.mem_cons_of_mem c hd))
    simp [consume_while, hc, ih2]

theorem consume_while_snd_le (p : Char → Bool) :
    ∀ l : List Char, (consume_while p l).2.length ≤ l.length := by
  intro l
  induction l with
  | nil => simp [consume_while]
  | cons c cs ih =>
    by_cases h : p c = true
    · simp only [consume_while, h, if_true, List.length_cons]
      exact le_trans ih (Nat.le_succ _)
    · simp [consume_while, h]

theorem consume_while_snd_cons_le (p : Char → Bool) (c : Char) (cs : List Char)
    (hp : p c = true) : (consume_while p (c :: cs)).2.length ≤ cs.length := by
  simpa [consume_while, hp] using consume_while_snd_le p cs

theorem dropWhile_head_false (p : Char → Bool) :
    ∀ (l : List Char) (c : Char), (l.dropWhile p).head? = some c → p c = false := by
  intro l
  induction l with
  | nil =>
    intro c hc
    simp at hc
  | cons d ds ih =>
    intro c hc
    rw [List.dropWhile_cons] at hc
    by_cases hd : p d = true
    · rw [if_pos hd] at hc
      exact ih c hc
    · rw [if_neg hd] at hc
      simp only [List.head?_cons, Option.some.injEq] at hc
      subst hc
      exact Bool.eq_false_iff.mpr hd

/-! ### Where each classifier leaves the cursor -/

theorem tokenize_number_rest {l : List Char} {t : Token} {rest : List Char}
    (hm : tokenize_number l = .ok (t, rest)) :
    rest = (consume_while (fun c => c.isDigit || c = '.') l).2 := by
  simp only [tokenize_number] at hm
  split at hm <;> split at hm <;> simp_all

theorem tokenize_string_rest {l : List Char} {t : Token} {rest : List Char}
    (hm : tokenize_string l = .ok (t, rest)) :
    rest = ((consume_while (fun c => c != '"') l.tail).2).tail := by
  simp only [tokenize_string] at hm
  split at hm <;> simp_all

theorem tokenize_char_rest {l : List Char} {t : Token} {rest : List Char}
    (hm : tokenize_char l = .ok (t, rest)) :
    rest = ((consume_while (fun c => c != '\'') l.tail).2).tail := by
  simp only [tokenize_char] at hm
  split at hm <;> simp_all

theorem tokenize_identifier_rest {l : List Char} {t : Token} {rest : List Char}
    (hm : tokenize_identifier l = (t, rest)) :
    rest = (consume_while identifier_cond l).2 := by
  simp only [tokenize_identifier] at hm
  split at hm
  · simp_all
  · split at hm <;> simp_all

theorem tokenize_minus_rest {l : List Char} {t : Token} {rest : List Char}
    (hm : tokenize_minus l = (t, rest)) :
    rest = l.tail ∨ rest = l.tail.tail := by
  simp only [tokenize_minus] at hm
  split at hm <;> simp_all

theorem tokenize_number_len {c : Char} {cs : List Char} {t : Token} {rest : List Char}
    (hp : c.isDigit = true) (hm : tokenize_number (c :: cs) = .ok (t, rest)) :
    rest.length ≤ cs.length := by
  rw [tokenize_number_rest hm]
  exact consume_while_snd_cons_le _ c cs (by simp [hp])

theorem tokenize_string_len {c : Char} {cs : List Char} {t : Token} {rest : List Char}
    (hm : tokenize_string (c :: cs) = .ok (t, rest)) : rest.length ≤ cs.length := by
  rw [tokenize_string_rest hm]
  simp only [List.tail_cons]
  have h1 := consume_while_snd_le (fun c => c != '"') cs
  have h2 := List.length_tail ((consume_while (fun c => c != '"') cs).2)
  omega

theorem tokenize_char_len {c : Char} {cs : List Char} {t : Token} {rest : List Char}
    (hm : tokenize_char (c :: cs) = .ok (t, rest)) : rest.length ≤ cs.length := by
  rw [tokenize_char_rest hm]
  simp only [List.tail_cons]
  have h1 := consume_while_snd_le (fun c => c != '\'') cs
  have h2 := List.length_tail ((consume_while (fun c => c != '\'') cs).2)
  omega

theorem tokenize_identifier_len {c : Char} {cs : List Char} {t : Token} {rest : List Char}
    (hp : c.isAlpha = true) (hm : tokenize_identifier (c :: cs) = (t, rest)) :
    rest.length ≤ cs.length := by
  rw [tokenize_identifier_rest hm]
  exact consume_while_snd_cons_le _ c cs (by simp [identifier_cond, is_alphabetic, hp])

theorem tokenize_minus_len {c : Char} {cs : List Char} {t : Token} {rest : List Char}
    (hm : tokenize_minus (c :: cs) = (t, rest)) : rest.length ≤ cs.length := by
  rcases tokenize_minus_rest hm with h | h
  · rw [h, List.tail_cons]
  · rw [h, List.tail_cons, List.length_tail]
    omega

/-! ### What each dispatch arm can do to the cursor -/

theorem classify_tok_len {c : Char} {cs : List Char} {t : Token} {rest : List Char}
    (h : classify c cs = .tok (.ok (t, rest))) : rest.length ≤ cs.length := by
  unfold classify at h
  repeat' split at h
  all_goals first
    | exact Step.noConfusion h
    | exact tokenize_number_len (by assumption) (Step.tok.inj h)
    | exact tokenize_string_len (Step.tok.inj h)
    | exact tokenize_char_len (Step.tok.inj h)
    | exact tokenize_identifier_len (by assumption) (Except.ok.inj (Step.tok.inj h))
    | exact tokenize_minus_len (Except.ok.inj (Step.tok.inj h))
    | (have h3 := Except.ok.inj (Step.tok.inj h)
       injection h3 with h1 h2
       subst h2
       exact le_rfl)

theorem classify_comment_len {c : Char} {cs : List Char} {rest : List Char}
    (h : classify c cs = .comment rest) : rest.length ≤ cs.length := by
  unfold classify at h
  repeat' split at h
  all_goals first
    | exact Step.noConfusion h
    | (have hc : c = '!' := by assumption
       subst hc
       rw [← Step.comment.inj h]
       exact consume_while_snd_cons_le _ _ _ (by decide))

theorem classify_comment_char {c : Char} {cs : List Char} {rest : List Char}
    (h : classify c cs = .comment rest) : c = '!' := by
  unfold classify at h
  repeat' split at h
  all_goals first | exact Step.noConfusion h | assumption

theorem classify_ws_char {c : Char} {cs : List Char}
    (h : classify c cs = .ws) : is_whitespace c = true := by
  unfold classify at h
  repeat' split at h
  all_goals first | exact Step.noConfusion h | assumption

/-! ### Fuel irrelevance: any fuel above the input length gives one value -/

theorem tokenizeFuel_mono : ∀ (n : Nat) (l : List Char) (f₁ f₂ line : Nat),
    l.length ≤ n → l.length < f₁ → l.length < f₂ →
    tokenizeFuel f₁ l line = tokenizeFuel f₂ l line := by
  intro n
  induction n with
  | zero =>
    intro l f₁ f₂ line h0 h1 h2
    obtain rfl : l = [] := List.eq_nil_of_length_eq_zero (Nat.le_zero.mp h0)
    simp only [List.length_nil] at h1 h2
    cases f₁ with
    | zero => omega
    | succ a =>
      cases f₂ with
      | zero => omega
      | succ b => rfl
  | succ n ih =>
    intro l f₁ f₂ line h0 h1 h2
    cases l with
    | nil =>
      simp only [List.length_nil] at h1 h2
      cases f₁ with
      | zero => omega
      | succ a =>
        cases f₂ with
        | zero => omega
        | succ b => rfl
    | cons c cs =>
      simp only [List.length_cons] at h0 h1 h2
      cases f₁ with
      | zero => omega
      | succ a =>
        cases f₂ with
        | zero => omega
        | succ b =>
          simp only [tokenizeFuel]
          rcases hm : classify c cs with (m | ⟨t, rest⟩) | rest | - | -
          · rfl
          · have hr := classify_tok_len hm
            exact congrArg (emit t line) (ih rest a b line (by omega) (by omega) (by omega))
          · have hr := classify_comment_len hm
            exact ih rest a b line (by omega) (by omega) (by omega)
          · show (if c = '\n' then tokenizeFuel a cs (line + 1) else tokenizeFuel a cs line) =
              (if c = '\n' then tokenizeFuel b cs (line + 1) else tokenizeFuel b cs line)
            by_cases hc : c = '\n'
            · simp only [if_pos hc]
              exact ih cs a b (line + 1) (by omega) (by omega) (by omega)
            · simp only [if_neg hc]
              exact ih cs a b line (by omega) (by omega) (by omega)
          · rfl

/-- Any sufficient fuel computes `tokenizeFrom`. -/
theorem tokenizeFuel_eq_from (f : Nat) (l : List Char) (line : Nat)
    (h : l.length < f) : tokenizeFuel f l line = tokenizeFrom l line :=
  tokenizeFuel_mono l.length l f (l.length + 1) line le_rfl h (Nat.lt_succ_self _)

/-! ### Character-class facts -/

theorem isAlpha_isDigit_false {c : Char} (h : c.isAlpha = true) : c.isDigit = false := by
  simp only [Char.isAlpha, Char.isUpper, Char.isLower, Char.isDigit, Bool.or_eq_true,
    Bool.and_eq_true, decide_eq_true_eq, ge_iff_le] at h ⊢
  simp only [UInt32.le_def, BitVec.le_def] at h ⊢
  rcases h with ⟨h1, h2⟩ | ⟨h1, h2⟩ <;> simp_all <;> omega

theorem ws_isDigit_false {c : Char} (h : is_whitespace c = true) : c.isDigit = false := by
  simp only [is_whitespace, Char.toNat, UInt32.toNat, Bool.or_eq_true, decide_eq_true_eq,
    Bool.and_eq_true] at h
  simp only [Char.isDigit, Bool.and_eq_true, decide_eq_true_eq, ge_iff_le,
    UInt32.le_def, BitVec.le_def]
  simp_all <;> omega

theorem ws_isAlpha_false {c : Char} (h : is_whitespace c = true) : c.isAlpha = false := by
  simp only [is_whitespace, Char.toNat, UInt32.toNat, Bool.or_eq_true, decide_eq_true_eq,
    Bool.and_eq_true] at h
  simp only [Char.isAlpha, Char.isUpper, Char.isLower, Char.isDigit, Bool.or_eq_true,
    Bool.and_eq_true, decide_eq_true_eq, ge_iff_le, UInt32.le_def, BitVec.le_def]
  simp_all <;> omega

/-! ### Which dispatch arm fires at a given head character -/

theorem punctToken_eq_none {c : Char}
    (h1 : c ≠ '+') (h2 : c ≠ '*') (h3 : c ≠ '/') (h4 : c ≠ '^') (h5 : c ≠ '(')
    (h6 : c ≠ ')') (h7 : c ≠ '\x7b') (h8 : c ≠ '\x7d') (h9 : c ≠ ':') (h10 : c ≠ ';')
    (h11 : c ≠ '<') (h12 : c ≠ '>') (h13 : c ≠ '&') (h14 : c ≠ '=') :
    punctToken c = none := by
  unfold punctToken
  rw [if_neg h1, if_neg h2, if_neg h3, if_neg h4, if_neg h5, if_neg h6, if_neg h7,
    if_neg h8, if_neg h9, if_neg h10, if_neg h11, if_neg h12, if_neg h13, if_neg h14]

theorem classify_digit {c : Char} (cs : List Char) (h : c.isDigit = true) :
    classify c cs = .tok (tokenize_number (c :: cs)) := by
  unfold classify
  rw [if_pos h]

theorem classify_alpha {c : Char} (cs : List Char) (h : c.isAlpha = true) :
    classify c cs = .tok (.ok (tokenize_identifier (c :: cs))) := by
  have hq : c ≠ '"' := fun e => absurd (e ▸ h) (by decide)
  have hsq : c ≠ '\'' := fun e => absurd (e ▸ h) (by decide)
  unfold classify
  rw [if_neg (by simp [isAlpha_isDigit_false h]), if_neg hq, if_neg hsq, if_pos h]

theorem classify_ws_of {c : Char} (cs : List Char) (h : is_whitespace c = true) :
    classify c cs = .ws := by
  have hne : ∀ d : Char, is_whitespace d = false → c ≠ d :=
    fun d hd e => by rw [e, hd] at h; exact Bool.noConfusion h
  have hp : punctToken c = none :=
    punctToken_eq_none (hne _ (by decide)) (hne _ (by decide)) (hne _ (by decide))
      (hne _ (by decide)) (hne _ (by decide)) (hne _ (by decide)) (hne _ (by decide))
      (hne _ (by decide)) (hne _ (by decide)) (hne _ (by decide)) (hne _ (by decide))
      (hne _ (by decide)) (hne _ (by decide)) (hne _ (by decide))
  unfold classify
  rw [if_neg (by simp [ws_isDigit_false h]), if_neg (hne _ (by decide)),
    if_neg (hne _ (by decide)), if_neg (by simp [ws_isAlpha_false h]),
    if_neg (hne _ (by decide))]
  simp only [hp]
  rw [if_neg (hne '!' (by decide)), if_pos h]

/-! ### One step of the scan loop -/

theorem tokenizeFrom_nil (line : Nat) : tokenizeFrom [] line = .ok [] := rfl

theorem tokenizeFrom_cons (c : Char) (cs : List Char) (line : Nat) :
    tokenizeFrom (c :: cs) line =
      match classify c cs with
      | .tok (.error m) => .panicked m
      | .tok (.ok (t, rest)) => emit t line (tokenizeFrom rest line)
      | .comment rest => tokenizeFrom rest line
      | .ws =>
        if c = '\n' then tokenizeFrom cs (line + 1) else tokenizeFrom cs line
      | .unexpected => .err ("Unexpected character: " ++ String.mk [c]) ⟨line⟩ := by
  show tokenizeFuel (cs.length + 1 + 1) (c :: cs) line = _
  simp only [tokenizeFuel]
  rcases hm : classify c cs with (m | ⟨t, rest⟩) | rest | - | -
  · rfl
  · exact congrArg (emit t line)
      (tokenizeFuel_eq_from _ _ _ (by have := classify_tok_len hm; omega))
  · exact tokenizeFuel_eq_from _ _ _ (by have := classify_comment_len hm; omega)
  · show (if c = '\n' then tokenizeFuel (cs.length + 1) cs (line + 1)
        else tokenizeFuel (cs.length + 1) cs line) = _
    by_cases hc : c = '\n' <;> simp only [if_pos, if_neg, hc] <;> rfl
  · rfl

theorem step_tok {c : Char} {cs : List Char} {t : Token} {rest : List Char} (line : Nat)
    (hm : classify c cs = .tok (.ok (t, rest))) :
    tokenizeFrom (c :: cs) line = emit t line (tokenizeFrom rest line) := by
  rw [tokenizeFrom_cons, hm]

theorem step_panic {c : Char} {cs : List Char} {m : String} (line : Nat)
    (hm : classify c cs = .tok (.error m)) :
    tokenizeFrom (c :: cs) line = .panicked m := by
  rw [tokenizeFrom_cons, hm]

theorem step_newline (cs : List Char) (line : Nat) :
    tokenizeFrom ('\n' :: cs) line = tokenizeFrom cs (line + 1) := rfl

theorem step_ws {c : Char} (cs : List Char) (line : Nat)
    (hws : is_whitespace c = true) (hnl : c ≠ '\n') :
    tokenizeFrom (c :: cs) line = tokenizeFrom cs line := by
  rw [tokenizeFrom_cons, classify_ws_of cs hws]
  simp only [if_neg hnl]

theorem emit_ok {t : Token} {line : Nat} {k : TokResult} {t2 : Token} {l : Location}
    {ts : List (Token × Location)} (h : emit t line k = .ok ((t2, l) :: ts)) :
    l = ⟨line⟩ := by
  cases k with
  | ok ts0 =>
    simp only [emit, TokResult.ok.injEq, List.cons.injEq, Prod.mk.injEq] at h
    exact h.1.2.symm
  | err m loc => exact absurd h (by simp [emit])
  | panicked m => exact absurd h (by simp [emit])

/-! ### Auxiliary facts about runs and membership -/

theorem all_bne_of_not_mem {a : Char} {l : List Char} (h : a ∉ l) :
    ∀ c ∈ l, (c != a) = true := by
  intro c hc
  simp only [bne_iff_ne, ne_eq]
  exact fun e => h (e ▸ hc)

theorem head_bne_false (a : Char) (ys : List Char) :
    ∀ c, (a :: ys).head? = some c → (c != a) = false := by
  intro c hc
  simp only [List.head?_cons, Option.some.injEq] at hc
  subst hc
  simp

theorem contains_eq_false_of_not_mem {a : Char} {l : List Char} (h : a ∉ l) :
    l.contains a = false := by
  rw [Bool.eq_false_iff]
  intro hc
  obtain ⟨x, hx, he⟩ := List.contains_iff_exists_mem_beq.mp hc
  rw [beq_iff_eq] at he
  subst he
  exact h hx

theorem contains_eq_true_of_mem {a : Char} {l : List Char} (h : a ∈ l) :
    l.contains a = true :=
  List.contains_iff_exists_mem_beq.mpr ⟨a, h, by simp⟩

theorem count_eq_zero_of_digits {ds : List Char}
    (hds : ∀ c ∈ ds, c.isDigit = true) : ds.count '.' = 0 :=
  List.count_eq_zero.mpr fun hmem => absurd (hds '.' hmem) (by decide)

theorem not_mem_dot_of_digits {ds : List Char}
    (hds : ∀ c ∈ ds, c.isDigit = true) : '.' ∉ ds :=
  fun hmem => absurd (hds '.' hmem) (by decide)

/-! ### The value each classifier computes on a well-shaped run -/

theorem tokenize_string_spec (body rest : List Char) (hb : '"' ∉ body) :
    tokenize_string ('"' :: (body ++ '"' :: rest)) =
      .ok (.literal (.string (String.mk body)), rest) := by
  have hcw : consume_while (fun c => c != '"') (body ++ '"' :: rest) = (body, '"' :: rest) :=
    consume_while_exact _ _ _ (all_bne_of_not_mem hb) (head_bne_false _ _)
  simp only [tokenize_string, List.tail_cons]
  rw [hcw]
  simp

theorem tokenize_char_spec_ok (c : Char) (rest : List Char) (hc : c ≠ '\'')
    (hsize : c.utf8Size = 1) :
    tokenize_char ('\'' :: c :: '\'' :: rest) = .ok (.literal (.char c), rest) := by
  have hcw : consume_while (fun x => x != '\'') (c :: '\'' :: rest) = ([c], '\'' :: rest) :=
    consume_while_exact _ [c] ('\'' :: rest)
      (by intro d hd; rw [List.mem_singleton] at hd; subst hd; simpa [bne_iff_ne] using hc)
      (head_bne_false _ _)
  simp only [tokenize_char, List.tail_cons]
  rw [hcw]
  simp [utf8Len, hsize]

theorem tokenize_char_spec_bad (body rest : List Char) (hb : '\'' ∉ body)
    (hlen : utf8Len body ≠ 1) :
    tokenize_char ('\'' :: (body ++ '\'' :: rest)) =
      .error ("Invalid character literal: " ++ String.mk body) := by
  have hcw : consume_while (fun x => x != '\'') (body ++ '\'' :: rest) = (body, '\'' :: rest) :=
    consume_while_exact _ _ _ (all_bne_of_not_mem hb) (head_bne_false _ _)
  simp only [tokenize_char, List.tail_cons]
  rw [hcw]
  simp [hlen]

theorem tokenize_string_spec_unterminated (body : List Char) (hb : '"' ∉ body) :
    tokenize_string ('"' :: body) = .error "Unterminated string" := by
  have hcw : consume_while (fun c => c != '"') (body ++ []) = (body, []) :=
    consume_while_exact _ _ _ (all_bne_of_not_mem hb) (by intro c hc; simp at hc)
  rw [List.append_nil] at hcw
  simp only [tokenize_string, List.tail_cons]
  rw [hcw]
  simp

theorem tokenize_number_spec_int (ds rest : List Char) (hne : ds ≠ [])
    (hds : ∀ c ∈ ds, c.isDigit = true)
    (hval : digitsVal ds ≤ 9223372036854775807)
    (hrest : ∀ x, rest.head? = some x → (x.isDigit || x = '.') = false) :
    tokenize_number (ds ++ rest) = .ok (.literal (.int (digitsVal ds)), rest) := by
  have hcw : consume_while (fun c => c.isDigit || c = '.') (ds ++ rest) = (ds, rest) :=
    consume_while_exact _ _ _ (fun c hc => by simp [hds c hc]) hrest
  have hcon : ds.contains '.' = false :=
    contains_eq_false_of_not_mem (not_mem_dot_of_digits hds)
  have hparse : parseI64 ds = some ((digitsVal ds : Int)) := by
    unfold parseI64
    rw [if_pos ⟨hne, List.all_eq_true.mpr hds, hval⟩]
  have h1 : (consume_while (fun c => c.isDigit || c = '.') (ds ++ rest)).1 = ds := by
    rw [hcw]
  have h2 : (consume_while (fun c => c.isDigit || c = '.') (ds ++ rest)).2 = rest := by
    rw [hcw]
  simp only [tokenize_number]
  rw [h1, h2, if_neg (by rw [hcon]; exact Bool.false_ne_true), hparse]

theorem tokenize_number_spec_float (a b rest : List Char) (ha : a ≠ []) (hb : b ≠ [])
    (hda : ∀ c ∈ a, c.isDigit = true) (hdb : ∀ c ∈ b, c.isDigit = true)
    (hrest : ∀ x, rest.head? = some x → (x.isDigit || x = '.') = false) :
    tokenize_number ((a ++ '.' :: b) ++ rest) =
      .ok (.literal (.float
        (mkRat (digitsVal a * 10 ^ b.length + digitsVal b) (10 ^ b.length))), rest) := by
  have hall : ∀ c ∈ a ++ '.' :: b, (c.isDigit || c = '.') = true := by
    intro c hcm
    rcases List.mem_append.mp hcm with hc | hc
    · simp [hda c hc]
    · rcases List.mem_cons.mp hc with rfl | hc
      · simp
      · simp [hdb c hc]
  have hcw : consume_while (fun c => c.isDigit || c = '.') ((a ++ '.' :: b) ++ rest) =
      (a ++ '.' :: b, rest) := consume_while_exact _ _ _ hall hrest
  have hcon : (a ++ '.' :: b).contains '.' = true :=
    contains_eq_true_of_mem (List.mem_append.mpr (Or.inr (List.mem_cons_self _ _)))
  have hsplit : consume_while (fun c => c != '.') (a ++ '.' :: b) = (a, '.' :: b) :=
    consume_while_exact _ _ _ (all_bne_of_not_mem (not_mem_dot_of_digits hda))
      (head_bne_false _ _)
  have hpair := (consume_while_eq (fun c => c != '.') (a ++ '.' :: b)).symm.trans hsplit
  injection hpair with htake hdrop
  have hcount : (a ++ '.' :: b).count '.' = 1 := by
    rw [List.count_append, List.count_cons_self,
      count_eq_zero_of_digits hda, count_eq_zero_of_digits hdb]
  have hparse : parseF64 (a ++ '.' :: b) =
      some (mkRat (digitsVal a * 10 ^ b.length + digitsVal b) (10 ^ b.length)) := by
    unfold parseF64
    rw [if_neg (by omega), if_pos hcount]
    simp only [htake, hdrop, List.tail_cons]
    rw [if_pos ⟨fun hnil => hb (List.append_eq_nil.mp hnil).2, List.all_eq_true.mpr
      (by intro c hc; rcases List.mem_append.mp hc with h | h; exacts [hda c h, hdb c h])⟩]
  have h1 : (consume_while (fun c => c.isDigit || c = '.') ((a ++ '.' :: b) ++ rest)).1 =
      a ++ '.' :: b := by rw [hcw]
  have h2 : (consume_while (fun c => c.isDigit || c = '.') ((a ++ '.' :: b) ++ rest)).2 =
      rest := by rw [hcw]
  simp only [tokenize_number]
  rw [h1, h2, if_pos hcon, hparse]

theorem tokenize_identifier_spec (run rest : List Char)
    (hrun : ∀ c ∈ run, identifier_cond c = true)
    (hrest : ∀ x, rest.head? = some x → identifier_cond x = false) :
    tokenize_identifier (run ++ rest) =
      (if String.mk run = "true" then .literal (.bool true)
       else if String.mk run = "false" then .literal (.bool false)
       else .identifier (String.mk run), rest) := by
  have hcw := consume_while_exact identifier_cond run rest hrun hrest
  have h1 : (consume_while identifier_cond (run ++ rest)).1 = run := by rw [hcw]
  have h2 : (consume_while identifier_cond (run ++ rest)).2 = rest := by rw [hcw]
  simp only [tokenize_identifier]
  rw [h1, h2]
  by_cases ht : String.mk run = "true"
  · rw [if_pos ht, if_pos ht]
  · by_cases hf : String.mk run = "false"
    · rw [if_neg ht, if_pos hf, if_neg ht, if_pos hf]
    · rw [if_neg ht, if_neg hf, if_neg ht, if_neg hf]

/-! ### The scan loop across one whole token -/

theorem classify_dquote (cs : List Char) :
    classify '"' cs = .tok (tokenize_string ('"' :: cs)) := rfl

theorem classify_squote (cs : List Char) :
    classify '\'' cs = .tok (tokenize_char ('\'' :: cs)) := rfl

theorem classify_bang (cs : List Char) :
    classify '!' cs = .comment (consume_while (fun x => x != '\n') ('!' :: cs)).2 := rfl

theorem string_loop (body rest : List Char) (line : Nat) (hb : '"' ∉ body) :
    tokenizeFrom ('"' :: (body ++ '"' :: rest)) line =
      emit (.literal (.string (String.mk body))) line (tokenizeFrom rest line) :=
  step_tok line ((classify_dquote _).trans
    (congrArg Step.tok (tokenize_string_spec body rest hb)))

theorem string_loop_unterminated (body : List Char) (line : Nat) (hb : '"' ∉ body) :
    tokenizeFrom ('"' :: body) line = .panicked "Unterminated string" :=
  step_panic line ((classify_dquote _).trans
    (congrArg Step.tok (tokenize_string_spec_unterminated body hb)))

theorem char_loop_ok (c : Char) (rest : List Char) (line : Nat) (hc : c ≠ '\'')
    (hsize : c.utf8Size = 1) :
    tokenizeFrom ('\'' :: c :: '\'' :: rest) line =
      emit (.literal (.char c)) line (tokenizeFrom rest line) :=
  step_tok line ((classify_squote _).trans
    (congrArg Step.tok (tokenize_char_spec_ok c rest hc hsize)))

theorem char_loop_bad (body rest : List Char) (line : Nat) (hb : '\'' ∉ body)
    (hlen : utf8Len body ≠ 1) :
    tokenizeFrom ('\'' :: (body ++ '\'' :: rest)) line =
      .panicked ("Invalid character literal: " ++ String.mk body) :=
  step_panic line ((classify_squote _).trans
    (congrArg Step.tok (tokenize_char_spec_bad body rest hb hlen)))

theorem int_loop (ds rest : List Char) (line : Nat) (hne : ds ≠ [])
    (hds : ∀ c ∈ ds, c.isDigit = true)
    (hval : digitsVal ds ≤ 9223372036854775807)
    (hrest : ∀ x, rest.head? = some x → (x.isDigit || x = '.') = false) :
    tokenizeFrom (ds ++ rest) line =
      emit (.literal (.int (digitsVal ds))) line (tokenizeFrom rest line) := by
  cases ds with
  | nil => exact absurd rfl hne
  | cons d ds =>
    have hd : d.isDigit = true := hds d (List.mem_cons_self _ _)
    exact step_tok line ((classify_digit _ hd).trans
      (congrArg Step.tok (tokenize_number_spec_int (d :: ds) rest hne hds hval hrest)))

theorem float_loop (a b rest : List Char) (line : Nat) (ha : a ≠ []) (hb : b ≠ [])
    (hda : ∀ c ∈ a, c.isDigit = true) (hdb : ∀ c ∈ b, c.isDigit = true)
    (hrest : ∀ x, rest.head? = some x → (x.isDigit || x = '.') = false) :
    tokenizeFrom ((a ++ '.' :: b) ++ rest) line =
      emit (.literal (.float
        (mkRat (digitsVal a * 10 ^ b.length + digitsVal b) (10 ^ b.length)))) line
        (tokenizeFrom rest line) := by
  cases a with
  | nil => exact absurd rfl ha
  | cons d a =>
    have hd : d.isDigit = true := hda d (List.mem_cons_self _ _)
    exact step_tok line ((classify_digit _ hd).trans
      (congrArg Step.tok (tokenize_number_spec_float (d :: a) b rest ha hb hda hdb hrest)))

theorem ident_loop (run rest : List Char) (line : Nat) (hne : run ≠ [])
    (hhead : ∀ x, run.head? = some x → x.isAlpha = true)
    (hrun : ∀ c ∈ run, identifier_cond c = true)
    (hrest : ∀ x, rest.head? = some x → identifier_cond x = false) :
    tokenizeFrom (run ++ rest) line =
      emit (if String.mk run = "true" then .literal (.bool true)
        else if String.mk run = "false" then .literal (.bool false)
        else .identifier (String.mk run)) line (tokenizeFrom rest line) := by
  cases run with
  | nil => exact absurd rfl hne
  | cons d ds =>
    have hd : d.isAlpha = true := hhead d rfl
    exact step_tok line ((classify_alpha (ds ++ rest) hd).trans
      (congrArg (fun z => Step.tok (Except.ok z))
        (tokenize_identifier_spec (d :: ds) rest hrun hrest)))

/-! ### Inputs made only of whitespace and line comments -/

/-- The inputs of the spec's "only whitespace and line comments" property:
empty, a whitespace character followed by such an input, or a `!` comment
(running to the newline that ends it, or to end of input) followed by such
an input. -/
inductive WsOrComment : List Char → Prop where
  | nil : WsOrComment []
  | ws (c : Char) (l : List Char) : is_whitespace c = true → WsOrComment l →
      WsOrComment (c :: l)
  | comment (b l : List Char) : (∀ x ∈ b, x ≠ '\n') →
      (l.head? = some '\n' ∨ l = []) → WsOrComment l → WsOrComment ('!' :: (b ++ l))

theorem tokenizeFrom_ws_or_comment {l : List Char} (h : WsOrComment l) :
    ∀ line, tokenizeFrom l line = .ok [] := by
  induction h with
  | nil => intro line; rfl
  | ws c l hws hl ih =>
    intro line
    by_cases hc : c = '\n'
    · subst hc
      rw [step_newline]
      exact ih _
    · rw [step_ws l line hws hc]
      exact ih line
  | comment b l hb hrest hl ih =>
    intro line
    have hcw : consume_while (fun x => x != '\n') ('!' :: (b ++ l)) = ('!' :: b, l) := by
      show consume_while (fun x => x != '\n') (('!' :: b) ++ l) = ('!' :: b, l)
      refine consume_while_exact _ _ _ ?_ ?_
      · intro c hc
        rcases List.mem_cons.mp hc with rfl | hc
        · decide
        · simpa [bne_iff_ne] using hb c hc
      · intro c hc
        rcases hrest with hh | hh
        · rw [hh] at hc
          simp only [Option.some.injEq] at hc
          subst hc
          decide
        · subst hh
          simp at hc
    rw [tokenizeFrom_cons, classify_bang]
    show tokenizeFrom (consume_while (fun x => x != '\n') ('!' :: (b ++ l))).2 line = .ok []
    rw [hcw]
    exact ih line

/-! ### Shape of one loop step at a non-skipped character -/

theorem scan_step_shape (c : Char) (cs : List Char) (line : Nat)
    (hnw : is_whitespace c = false) (hnb : c ≠ '!') :
    (∃ m, tokenizeFrom (c :: cs) line = .panicked m) ∨
    tokenizeFrom (c :: cs) line = .err ("Unexpected character: " ++ String.mk [c]) ⟨line⟩ ∨
    ∃ t rest, tokenizeFrom (c :: cs) line = emit t line (tokenizeFrom rest line) := by
  rw [tokenizeFrom_cons]
  rcases hm : classify c cs with (m | ⟨t, rest⟩) | rest | - | -
  · exact Or.inl ⟨m, rfl⟩
  · exact Or.inr (Or.inr ⟨t, rest, rfl⟩)
  · exact absurd (classify_comment_char hm) hnb
  · rw [classify_ws_char hm] at hnw
    exact Bool.noConfusion hnw
  · exact Or.inr (Or.inl rfl)

/-! ## The claims -/

/-- C1: the claim says every failure is delivered through the single
recoverable error channel.  In the reference code only the unexpected
character does that; the unterminated string, the invalid character
literal and the malformed number all abort (panic) instead of returning an
error value.  This theorem evaluates the scanner at one failing input per
condition, exhibiting the panics. -/
theorem claim1_reference_panics :
    tokenize "\"abc" = .panicked "Unterminated string" ∧
    tokenize "''" = .panicked "Invalid character literal: " ∧
    tokenize "'ab'" = .panicked "Invalid character literal: ab" ∧
    tokenize "1..2" =
      .panicked "called Result::unwrap() on an Err value: ParseFloatError" ∧
    tokenize "99999999999999999999" =
      .panicked "called Result::unwrap() on an Err value: ParseIntError" ∧
    tokenize "@" = .err "Unexpected character: @" ⟨0⟩ := by
  refine ⟨?_, ?_, ?_, ?_, ?_, ?_⟩ <;> decide

/-- C2 counterexample: a character literal whose body is exactly one
character (`é`) does not yield a `Char` literal — the code compares the
body's UTF-8 byte length (Rust `String::len`) to 1, and `é` occupies two
bytes, so the scan aborts with the invalid-character-literal panic. -/
theorem claim2_counterexample :
    ("é".toList.length = 1) ∧
    tokenize "'é'" = .panicked "Invalid character literal: é" ∧
    tokenize "'é'" ≠ .ok [(.literal (.char 'é'), ⟨0⟩)] :=
  ⟨by decide, by decide, by decide⟩

/-- C2 amended: for a body that is one character whose UTF-8 encoding is a
single byte, the scanner consumes the closing quote and emits that `Char`
literal; for any body whose byte length differs from 1 (empty, more than
one character, or one multi-byte character) the scan fails with the
invalid-character-literal failure carrying the offending run. -/
theorem claim2_amended :
    (∀ (c : Char) (rest : List Char) (line : Nat), c ≠ '\'' → c.utf8Size = 1 →
      tokenizeFrom ('\'' :: c :: '\'' :: rest) line =
        emit (.literal (.char c)) line (tokenizeFrom rest line)) ∧
    (∀ (body rest : List Char) (line : Nat), '\'' ∉ body → utf8Len body ≠ 1 →
      tokenizeFrom ('\'' :: (body ++ '\'' :: rest)) line =
        .panicked ("Invalid character literal: " ++ String.mk body)) :=
  ⟨fun c rest line hc hs => char_loop_ok c rest line hc hs,
   fun body rest line hb hl => char_loop_bad body rest line hb hl⟩

/-- C2 witness: the amended theorem applied at the concrete literals
`'a'` (emits the char) and `'ab'` (fails, message carries `ab`). -/
theorem claim2_amended_witness :
    tokenizeFrom ('\'' :: 'a' :: '\'' :: []) 0 =
      emit (.literal (.char 'a')) 0 (tokenizeFrom [] 0) ∧
    tokenizeFrom ('\'' :: (['a', 'b'] ++ '\'' :: [])) 0 =
      .panicked ("Invalid character literal: " ++ String.mk ['a', 'b']) :=
  ⟨claim2_amended.1 'a' [] 0 (by decide) (by decide),
   claim2_amended.2 ['a', 'b'] [] 0 (by decide) (by decide)⟩

/-- C3: a maximal all-digit run with no dot (whose value fits in `i64`,
the presupposition of "the run's parsed 64-bit signed value") is emitted as
an `Int` literal with that value; a maximal run with exactly one dot and
digits on both sides is emitted as a `Float` literal whose value is the
run's decimal value `a + b / 10 ^ |b|` (the final conjunct identifies the
stored rational with that quotient; the IEEE-754 rounding the Rust `f64`
applies to this decimal value is outside the model). -/
theorem claim3_number_literals :
    (∀ (ds rest : List Char) (line : Nat), ds ≠ [] →
      (∀ c ∈ ds, c.isDigit = true) →
      digitsVal ds ≤ 9223372036854775807 →
      (∀ x, rest.head? = some x → (x.isDigit || x = '.') = false) →
      tokenizeFrom (ds ++ rest) line =
        emit (.literal (.int (digitsVal ds))) line (tokenizeFrom rest line)) ∧
    (∀ (a b rest : List Char) (line : Nat), a ≠ [] → b ≠ [] →
      (∀ c ∈ a, c.isDigit = true) → (∀ c ∈ b, c.isDigit = true) →
      (∀ x, rest.head? = some x → (x.isDigit || x = '.') = false) →
      tokenizeFrom ((a ++ '.' :: b) ++ rest) line =
        emit (.literal (.float
          (mkRat (digitsVal a * 10 ^ b.length + digitsVal b) (10 ^ b.length)))) line
          (tokenizeFrom rest line) ∧
      (mkRat (digitsVal a * 10 ^ b.length + digitsVal b) (10 ^ b.length) : Rat) =
        (digitsVal a : Rat) + (digitsVal b : Rat) / 10 ^ b.length) := by
  constructor
  · exact fun ds rest line hne hds hval hrest => int_loop ds rest line hne hds hval hrest
  · intro a b rest line ha hb hda hdb hrest
    refine ⟨float_loop a b rest line ha hb hda hdb hrest, ?_⟩
    rw [Rat.mkRat_eq_div]
    have h10 : ((10 : Rat)) ^ b.length ≠ 0 := pow_ne_zero _ (by norm_num)
    push_cast
    field_simp

/-- C3 witness: the theorem applied at the runs `42` and `3.5`. -/
theorem claim3_witness :
    tokenizeFrom (['4', '2'] ++ []) 0 =
      emit (.literal (.int (digitsVal ['4', '2']))) 0 (tokenizeFrom [] 0) ∧
    tokenizeFrom ((['3'] ++ '.' :: ['5']) ++ []) 0 =
      emit (.literal (.float
        (mkRat (digitsVal ['3'] * 10 ^ (['5'] : List Char).length + digitsVal ['5'])
          (10 ^ (['5'] : List Char).length)))) 0 (tokenizeFrom [] 0) :=
  ⟨claim3_number_literals.1 ['4', '2'] [] 0 (by decide) (by decide) (by decide)
      (fun x hx => Option.noConfusion hx),
   (claim3_number_literals.2 ['3'] ['5'] [] 0 (by decide) (by decide) (by decide)
      (by decide) (fun x hx => Option.noConfusion hx)).1⟩

/-- C4: for input consisting of a string literal `"X"` whose body `X`
contains no double quote, the scan succeeds with a single `String` literal
whose value is exactly `X` — quotes excluded, a backslash kept as an
ordinary character (the theorem quantifies over every body, including ones
with backslashes). -/
theorem claim4_string_literal (X : List Char) (hX : '"' ∉ X) :
    tokenize (String.mk ('"' :: (X ++ ['"']))) =
      .ok [(.literal (.string (String.mk X)), ⟨0⟩)] := by
  show tokenizeFrom (String.mk ('"' :: (X ++ ['"']))).toList 0 = _
  have hl : (String.mk ('"' :: (X ++ ['"']))).toList = '"' :: (X ++ '"' :: []) := rfl
  rw [hl, string_loop X [] 0 hX]
  rfl

/-- C4 witness: the theorem applied at the body `a\nb` (with a literal
backslash, preserved verbatim in the value). -/
theorem claim4_witness :
    tokenize (String.mk ('"' :: (['a', '\\', 'n', 'b'] ++ ['"']))) =
      .ok [(.literal (.string (String.mk ['a', '\\', 'n', 'b'])), ⟨0⟩)] :=
  claim4_string_literal ['a', '\\', 'n', 'b'] (by decide)

/-- C5: after the consumed `-`, a peeked `>` is consumed and yields
`Arrow`, anything else leaves the cursor alone and yields `Minus`; the two
concrete inputs of the claim behave as stated. -/
theorem claim5_minus_arrow :
    (∀ cs : List Char, tokenize_minus ('-' :: cs) =
      if cs.head? = some '>' then (.arrow, cs.tail) else (.minus, cs)) ∧
    tokenize "-> -" = .ok [(.arrow, ⟨0⟩), (.minus, ⟨0⟩)] ∧
    tokenize "- >" = .ok [(.minus, ⟨0⟩), (.greaterThan, ⟨0⟩)] := by
  refine ⟨fun cs => ?_, by decide, by decide⟩
  simp only [tokenize_minus, List.tail_cons]

/-- C6: a maximal identifier run is classified as a Boolean literal
exactly when it is spelled `true` or `false`, and otherwise as an
`Identifier` carrying the whole run; `truex` lexes as one identifier. -/
theorem claim6_keyword_literals :
    (∀ (run rest : List Char) (line : Nat), run ≠ [] →
      (∀ x, run.head? = some x → x.isAlpha = true) →
      (∀ c ∈ run, identifier_cond c = true) →
      (∀ x, rest.head? = some x → identifier_cond x = false) →
      ∃ t, tokenizeFrom (run ++ rest) line = emit t line (tokenizeFrom rest line) ∧
        (t = .literal (.bool true) ↔ String.mk run = "true") ∧
        (t = .literal (.bool false) ↔ String.mk run = "false") ∧
        (String.mk run ≠ "true" → String.mk run ≠ "false" →
          t = .identifier (String.mk run))) ∧
    tokenize "truex" = .ok [(.identifier "truex", ⟨0⟩)] ∧
    tokenize "true" = .ok [(.literal (.bool true), ⟨0⟩)] ∧
    tokenize "false" = .ok [(.literal (.bool false), ⟨0⟩)] := by
  refine ⟨?_, by decide, by decide, by decide⟩
  intro run rest line hne hhead hrun hrest
  refine ⟨_, ident_loop run rest line hne hhead hrun hrest, ?_, ?_, ?_⟩
  · by_cases ht : String.mk run = "true"
    · simp [ht]
    · by_cases hf : String.mk run = "false" <;> simp [ht, hf]
  · by_cases ht : String.mk run = "true"
    · simp [ht]
    · by_cases hf : String.mk run = "false" <;> simp [ht, hf]
  · intro ht hf
    simp [ht, hf]

/-- C6 witness: the theorem applied at the run `truex`. -/
theorem claim6_witness :
    ∃ t, tokenizeFrom (['t', 'r', 'u', 'e', 'x'] ++ []) 0 =
        emit t 0 (tokenizeFrom [] 0) ∧
      (t = .literal (.bool true) ↔ String.mk ['t', 'r', 'u', 'e', 'x'] = "true") ∧
      (t = .literal (.bool false) ↔ String.mk ['t', 'r', 'u', 'e', 'x'] = "false") ∧
      (String.mk ['t', 'r', 'u', 'e', 'x'] ≠ "true" →
        String.mk ['t', 'r', 'u', 'e', 'x'] ≠ "false" →
        t = .identifier (String.mk ['t', 'r', 'u', 'e', 'x'])) :=
  claim6_keyword_literals.1 ['t', 'r', 'u', 'e', 'x'] [] 0 (by decide)
    (by intro x hx
        simp only [List.head?_cons, Option.some.injEq] at hx
        subst hx
        decide)
    (by decide) (fun x hx => Option.noConfusion hx)

/-- C7: an input consisting solely of whitespace characters and `!` line
comments tokenizes to the empty sequence. -/
theorem claim7_ws_comments_empty (s : String) (h : WsOrComment s.toList) :
    tokenize s = .ok [] :=
  tokenizeFrom_ws_or_comment h 0

/-- C7 witness: the theorem applied to a space, a comment, its ending
newline and a tab. -/
theorem claim7_witness : tokenize " !hi\n\t" = .ok [] := by
  refine claim7_ws_comments_empty _ ?_
  show WsOrComment (' ' :: ('!' :: (['h', 'i'] ++ ['\n', '\t'])))
  exact .ws _ _ (by decide)
    (.comment ['h', 'i'] ['\n', '\t'] (by decide) (Or.inl rfl)
      (.ws _ _ (by decide) (.ws _ _ (by decide) .nil)))

/-- C8: a newline consumed as whitespace increments the line counter; a
token produced at any non-skipped head character is paired with the line
number current when that character was peeked; and the concrete two-line
input of the claim gets lines 0 and 1. -/
theorem claim8_line_tracking :
    (∀ (cs : List Char) (line : Nat),
      tokenizeFrom ('\n' :: cs) line = tokenizeFrom cs (line + 1)) ∧
    (∀ (c : Char) (cs : List Char) (line : Nat) (t : Token) (l : Location)
        (ts : List (Token × Location)),
      is_whitespace c = false → c ≠ '!' →
      tokenizeFrom (c :: cs) line = .ok ((t, l) :: ts) → l = ⟨line⟩) ∧
    tokenize "hello\nworld" =
      .ok [(.identifier "hello", ⟨0⟩), (.identifier "world", ⟨1⟩)] := by
  refine ⟨fun cs line => step_newline cs line, ?_, by decide⟩
  intro c cs line t l ts hnw hnb hok
  rcases scan_step_shape c cs line hnw hnb with ⟨m, hp⟩ | he | ⟨t2, rest, hstep⟩
  · rw [hp] at hok
    exact TokResult.noConfusion hok
  · rw [he] at hok
    exact TokResult.noConfusion hok
  · rw [hstep] at hok
    exact emit_ok hok

/-- C8 witness: the newline rule at a concrete input, and the location
rule applied at the head character `x` on line 5. -/
theorem claim8_witness :
    tokenizeFrom ['\n'] 0 = tokenizeFrom [] 1 ∧ (⟨5⟩ : Location) = ⟨5⟩ :=
  ⟨claim8_line_tracking.1 [] 0,
   claim8_line_tracking.2.1 'x' [] 5 (.identifier "x") ⟨5⟩ [] (by decide) (by decide)
     (by decide)⟩

/-- C9: `consume_while` returns exactly the maximal predicate-satisfying
prefix (it equals `takeWhile`/`dropWhile`), consumes precisely those
characters (the two components re-assemble the input), never fails (it is
total by type), and leaves the first failing character as the head of the
remaining input. -/
theorem claim9_consume_while (p : Char → Bool) (l : List Char) :
    consume_while p l = (l.takeWhile p, l.dropWhile p) ∧
    (consume_while p l).1 ++ (consume_while p l).2 = l ∧
    (∀ c ∈ (consume_while p l).1, p c = true) ∧
    (∀ c, (consume_while p l).2.head? = some c → p c = false) := by
  refine ⟨consume_while_eq p l, ?_, ?_, ?_⟩
  · rw [consume_while_eq]
    exact List.takeWhile_append_dropWhile p l
  · rw [consume_while_eq]
    intro c hc
    exact List.mem_takeWhile_imp hc
  · rw [consume_while_eq]
    exact dropWhile_head_false p l

/-- C9 witness: the theorem applied at the alphabetic predicate over
`hello world`. -/
theorem claim9_witness :
    consume_while Char.isAlpha ("hello world".toList) =
      ("hello world".toList.takeWhile Char.isAlpha,
        "hello world".toList.dropWhile Char.isAlpha) ∧
    Char.isAlpha 'h' = true :=
  ⟨(claim9_consume_while Char.isAlpha ("hello world".toList)).1,
   (claim9_consume_while Char.isAlpha ("hello world".toList)).2.2.1 'h' (by decide)⟩

/-- C10: scanning a string literal hands the continuation the same line
counter it started with — the newlines inside the body are consumed by the
string classifier, not by the whitespace arm, so they never increment the
counter (the right-hand side reuses `line` unchanged).  Concretely, after
the literal `"a\nb"` whose body spans one newline, the following token `x`
is reported at line 0 although one newline precedes it in the source
(third conjunct), i.e. its reported line is 1 less than its actual line. -/
theorem claim10_string_newlines :
    (∀ (body rest : List Char) (line : Nat), '"' ∉ body →
      tokenizeFrom ('"' :: (body ++ '"' :: rest)) line =
        emit (.literal (.string (String.mk body))) line (tokenizeFrom rest line)) ∧
    tokenize "\"a\nb\" x" =
      .ok [(.literal (.string "a\nb"), ⟨0⟩), (.identifier "x", ⟨0⟩)] ∧
    ("\"a\nb\" ".toList.count '\n' = 1) := by
  refine ⟨fun body rest line hb => string_loop body rest line hb, by decide, by decide⟩

/-- C10 witness: the loop lemma applied at the body `a\nb` (one newline)
followed by ` x`. -/
theorem claim10_witness :
    tokenizeFrom ('"' :: (['a', '\n', 'b'] ++ '"' :: [' ', 'x'])) 0 =
      emit (.literal (.string (String.mk ['a', '\n', 'b']))) 0
        (tokenizeFrom [' ', 'x'] 0) :=
  claim10_string_newlines.1 ['a', '\n', 'b'] [' ', 'x'] 0 (by decide)

end Slo
